import Mathlib

/-!
# TenderGuardian — Sealed-Record Integrity Subsystem, shallow embedding

A shallow embedding in Lean 4 of the sealed-bid backend
(`src/backend/encryption_utils.py`, `src/backend/server.py`):

* byte sequences are `List Nat` with every element `< 256`;
* the UTF-8 encoding of Python's `str.encode('utf-8')` is implemented
  directly on the code points of a `String`;
* `hashlib.sha256` and `hashlib.sha3_512` are implemented in full
  (FIPS 180-4 / FIPS 202), working over `Nat` with explicit `% 2^32`
  and `% 2^64` reductions;
* the AES-256 block permutation from `Crypto.Cipher.AES` is an external
  library primitive, so it is a parameter `encBlock / decBlock` of the
  embedding (a 16-byte-block function); CBC chaining, random-IV
  generation and PKCS#7 padding — the behaviour the backend composes —
  are embedded concretely;
* the entropy source `Crypto.Random.get_random_bytes` is a parameter
  `stream : Nat → Nat` of byte values;
* the MongoDB collections are `List` states threaded through the
  operations; `db.bids.find({}, projection).sort("timestamp", -1)
  .to_list(1000)` becomes sort-descending + project + take.
-/

/-! ## Byte-list utilities -/

/-- Bytewise XOR of two byte lists (`bytes` XOR, as used by CBC chaining). -/
def xorBytes (a b : List Nat) : List Nat := List.zipWith Nat.xor a b

/-- Fuel-indexed splitting of a byte list into chunks of `n` bytes
(the fuel makes the definition structurally recursive, hence
kernel-reducible). -/
def chunkAux (n : Nat) : Nat → List Nat → List (List Nat)
  | 0, _ => []
  | _ + 1, [] => []
  | fuel + 1, x :: xs => (x :: xs).take n :: chunkAux n fuel ((x :: xs).drop n)

/-- Split a byte list into consecutive chunks of `n` bytes. -/
def chunk (n : Nat) (l : List Nat) : List (List Nat) := chunkAux n l.length l

/-- Big-endian byte serialisation of `v` on `n` bytes. -/
def beBytes (n v : Nat) : List Nat :=
  (List.range n).map (fun i => (v >>> (8 * (n - 1 - i))) % 256)

/-- Little-endian bytes of a 64-bit lane (8 bytes for Keccak lanes). -/
def leBytes8 (v : Nat) : List Nat :=
  (List.range 8).map (fun j => (v >>> (8 * j)) % 256)

/-- A 64-bit lane from up to 8 little-endian bytes. -/
def laneOfBytes (l : List Nat) : Nat := l.foldr (fun b acc => b + 256 * acc) 0

/-- One lowercase hexadecimal digit. -/
def hexDigitChar (n : Nat) : Char := "0123456789abcdef".data.getD n '0'

/-- Lowercase hex rendering of a byte list, two characters per byte —
the format of Python's `hexdigest()`. -/
def hexOfBytes (l : List Nat) : String :=
  String.mk (l.flatMap (fun b => [hexDigitChar (b / 16), hexDigitChar (b % 16)]))

/-- UTF-8 bytes of one Unicode code point, as `bytes` produced by Python's
`str.encode('utf-8')`. -/
def utf8EncodeCodePoint (c : Nat) : List Nat :=
  if c < 0x80 then [c]
  else if c < 0x800 then [0xC0 + c / 64, 0x80 + c % 64]
  else if c < 0x10000 then [0xE0 + c / 4096, 0x80 + (c / 64) % 64, 0x80 + c % 64]
  else [0xF0 + c / 262144, 0x80 + (c / 4096) % 64, 0x80 + (c / 64) % 64, 0x80 + c % 64]

/-- UTF-8 encoding of a string (`s.encode('utf-8')` in the source). -/
def utf8Bytes (s : String) : List Nat :=
  s.data.flatMap (fun c => utf8EncodeCodePoint c.toNat)

/-- Model of `Crypto.Random.get_random_bytes n`: the next `n` bytes of the process
entropy stream, modelled as a function from positions to byte values. -/
def get_random_bytes (n : Nat) (stream : Nat → Nat) : List Nat :=
  (List.range n).map (fun i => stream i % 256)

/-! ## SHA-256 (FIPS 180-4), the body of `hashlib.sha256` -/

/-- Right-rotation of a 32-bit word. -/
def rotr32 (x n : Nat) : Nat := ((x >>> n) ||| (x <<< (32 - n))) % 4294967296

/-- The 64 SHA-256 round constants. -/
def sha256K : List Nat :=
  [1116352408, 1899447441, 3049323471, 3921009573, 961987163,
   1508970993, 2453635748, 2870763221, 3624381080, 310598401,
   607225278, 1426881987, 1925078388, 2162078206, 2614888103,
   3248222580, 3835390401, 4022224774, 264347078, 604807628,
   770255983, 1249150122, 1555081692, 1996064986, 2554220882,
   2821834349, 2952996808, 3210313671, 3336571891, 3584528711,
   113926993, 338241895, 666307205, 773529912, 1294757372,
   1396182291, 1695183700, 1986661051, 2177026350, 2456956037,
   2730485921, 2820302411, 3259730800, 3345764771, 3516065817,
   3600352804, 4094571909, 275423344, 430227734, 506948616,
   659060556, 883997877, 958139571, 1322822218, 1537002063,
   1747873779, 1955562222, 2024104815, 2227730452, 2361852424,
   2428436474, 2756734187, 3204031479, 3329325298]

/-- Working state of the SHA-256 compression function: eight 32-bit words. -/
structure Sha256State where
  a : Nat
  b : Nat
  c : Nat
  d : Nat
  e : Nat
  f : Nat
  g : Nat
  h : Nat

/-- The SHA-256 initial hash value. -/
def sha256Init : Sha256State :=
  ⟨1779033703, 3144134277, 1013904242,
   2773480762, 1359893119, 2600822924,
   528734635, 1541459225⟩

/-- Extend the 16-word message block to the 64-word schedule. -/
def sha256Extend : Nat → List Nat → List Nat
  | 0, w => w
  | n + 1, w =>
    let i := w.length
    let x15 := w.getD (i - 15) 0
    let x2 := w.getD (i - 2) 0
    let s0 := rotr32 x15 7 ^^^ rotr32 x15 18 ^^^ (x15 >>> 3)
    let s1 := rotr32 x2 17 ^^^ rotr32 x2 19 ^^^ (x2 >>> 10)
    sha256Extend n (w ++ [(w.getD (i - 16) 0 + s0 + w.getD (i - 7) 0 + s1) % 4294967296])

/-- One SHA-256 round on the working state; `kw` is `K[t] + W[t]`. -/
def sha256Round (s : Sha256State) (kw : Nat) : Sha256State :=
  let S1 := rotr32 s.e 6 ^^^ rotr32 s.e 11 ^^^ rotr32 s.e 25
  let ch := (s.e &&& s.f) ^^^ ((4294967295 ^^^ s.e) &&& s.g)
  let t1 := (s.h + S1 + ch + kw) % 4294967296
  let S0 := rotr32 s.a 2 ^^^ rotr32 s.a 13 ^^^ rotr32 s.a 22
  let mj := (s.a &&& s.b) ^^^ (s.a &&& s.c) ^^^ (s.b &&& s.c)
  let t2 := (S0 + mj) % 4294967296
  ⟨(t1 + t2) % 4294967296, s.a, s.b, s.c, (s.d + t1) % 4294967296, s.e, s.f, s.g⟩

/-- The SHA-256 compression function on one 64-byte block. -/
def sha256Compress (s : Sha256State) (block : List Nat) : Sha256State :=
  let w := sha256Extend 48 ((chunk 4 block).map laneOfBytesBE)
  let t := (List.range 64).foldl
    (fun st i => sha256Round st ((sha256K.getD i 0 + w.getD i 0) % 4294967296)) s
  ⟨(s.a + t.a) % 4294967296, (s.b + t.b) % 4294967296, (s.c + t.c) % 4294967296,
   (s.d + t.d) % 4294967296, (s.e + t.e) % 4294967296, (s.f + t.f) % 4294967296,
   (s.g + t.g) % 4294967296, (s.h + t.h) % 4294967296⟩
where
  /-- A 32-bit word from 4 big-endian bytes. -/
  laneOfBytesBE (l : List Nat) : Nat := l.foldl (fun acc b => acc * 256 + b) 0

/-- SHA-256 message padding: `0x80`, zeros, then the 64-bit big-endian
bit length, to a multiple of 64 bytes. -/
def sha256Pad (m : List Nat) : List Nat :=
  m ++ [0x80] ++ List.replicate ((55 + 64 - m.length % 64) % 64) 0 ++ beBytes 8 (8 * m.length)

/-- The SHA-256 digest (32 bytes) of a byte message. -/
def sha256 (m : List Nat) : List Nat :=
  let s := (chunk 64 (sha256Pad m)).foldl sha256Compress sha256Init
  beBytes 4 s.a ++ beBytes 4 s.b ++ beBytes 4 s.c ++ beBytes 4 s.d ++
  beBytes 4 s.e ++ beBytes 4 s.f ++ beBytes 4 s.g ++ beBytes 4 s.h

/-! ## SHA3-512 (FIPS 202), the body of `hashlib.sha3_512` -/

/-- Left-rotation of a 64-bit lane. -/
def rotl64 (x n : Nat) : Nat :=
  ((x <<< (n % 64)) ||| (x >>> (64 - n % 64))) % 18446744073709551616

/-- The 24 Keccak-f[1600] round constants. -/
def keccakRC : List Nat :=
  [1, 32898, 9223372036854808714,
   9223372039002292224, 32907, 2147483649,
   9223372039002292353, 9223372036854808585, 138,
   136, 2147516425, 2147483658,
   2147516555, 9223372036854775947, 9223372036854808713,
   9223372036854808579, 9223372036854808578, 9223372036854775936,
   32778, 9223372039002259466, 9223372039002292353,
   9223372036854808704, 2147483649, 9223372039002292232]

/-- The rho-step rotation offsets, flat-indexed by lane `k = x + 5*y`. -/
def keccakRotOff : List Nat :=
  [0, 1, 62, 28, 27] ++ [36, 44, 6, 55, 20] ++ [3, 10, 43, 25, 39] ++
    [41, 45, 15, 21, 8] ++ [18, 2, 61, 56, 14]

/-- The Keccak theta step on a 25-lane state (lane `k = x + 5*y`). -/
def keccakTheta (A : List Nat) : List Nat :=
  let C := (List.range 5).map (fun x =>
    A.getD x 0 ^^^ A.getD (x + 5) 0 ^^^ A.getD (x + 10) 0 ^^^
    A.getD (x + 15) 0 ^^^ A.getD (x + 20) 0)
  let D := (List.range 5).map (fun x =>
    C.getD ((x + 4) % 5) 0 ^^^ rotl64 (C.getD ((x + 1) % 5) 0) 1)
  (List.range 25).map (fun k => A.getD k 0 ^^^ D.getD (k % 5) 0)

/-- The combined rho and pi steps: lane `(X, Y)` of the result is lane
`((X + 3Y) % 5, X)` of the input, rotated by its rho offset. -/
def keccakRhoPi (A : List Nat) : List Nat :=
  (List.range 25).map (fun k =>
    let X := k % 5
    let Y := k / 5
    let src := (X + 3 * Y) % 5 + 5 * X
    rotl64 (A.getD src 0) (keccakRotOff.getD src 0))

/-- The Keccak chi step. -/
def keccakChi (A : List Nat) : List Nat :=
  (List.range 25).map (fun k =>
    let X := k % 5
    let Y := k / 5
    A.getD k 0 ^^^
      ((18446744073709551615 ^^^ A.getD ((X + 1) % 5 + 5 * Y) 0) &&&
        A.getD ((X + 2) % 5 + 5 * Y) 0))

/-- The Keccak iota step: XOR the round constant into lane 0. -/
def keccakIota (A : List Nat) (rc : Nat) : List Nat :=
  (List.range 25).map (fun k => if k = 0 then A.getD 0 0 ^^^ rc else A.getD k 0)

/-- The Keccak-f[1600] permutation: 24 rounds of theta, rho, pi, chi, iota. -/
def keccakF (A : List Nat) : List Nat :=
  keccakRC.foldl (fun st rc => keccakIota (keccakChi (keccakRhoPi (keccakTheta st))) rc) A

/-- Absorb one 72-byte rate block into the state, then permute. -/
def keccakAbsorbBlock (A : List Nat) (block : List Nat) : List Nat :=
  keccakF ((List.range 25).map (fun k =>
    if k < 9 then A.getD k 0 ^^^ laneOfBytes ((block.drop (8 * k)).take 8)
    else A.getD k 0))

/-- The SHA-3 `pad10*1` padding with domain separator `0x06`, to a
multiple of the 72-byte SHA3-512 rate. -/
def sha3Pad (rate : Nat) (m : List Nat) : List Nat :=
  let q := rate - m.length % rate
  if q = 1 then m ++ [0x86]
  else m ++ [0x06] ++ List.replicate (q - 2) 0 ++ [0x80]

/-- The SHA3-512 digest (64 bytes) of a byte message: absorb at rate 72,
squeeze the first 64 bytes (lanes 0–7, little-endian). -/
def sha3_512 (m : List Nat) : List Nat :=
  let A := (chunk 72 (sha3Pad 72 m)).foldl keccakAbsorbBlock (List.replicate 25 0)
  leBytes8 (A.getD 0 0) ++ leBytes8 (A.getD 1 0) ++ leBytes8 (A.getD 2 0) ++
  leBytes8 (A.getD 3 0) ++ leBytes8 (A.getD 4 0) ++ leBytes8 (A.getD 5 0) ++
  leBytes8 (A.getD 6 0) ++ leBytes8 (A.getD 7 0)

/-! ## PKCS#7 padding and CBC chaining (`Crypto.Util.Padding`, `MODE_CBC`) -/

/-- PKCS#7 padding to a multiple of the block size `bs`
(`Crypto.Util.Padding.pad(data, bs)`): append `n = bs - len % bs` bytes,
each of value `n`. -/
def pkcs7pad (bs : Nat) (l : List Nat) : List Nat :=
  let n := bs - l.length % bs
  l ++ List.replicate n n

/-- PKCS#7 unpadding (`Crypto.Util.Padding.unpad(data, bs)`): read the
last byte `n`, require `1 ≤ n ≤ bs`, a block-aligned length, and `n`
trailing copies of `n`; strip them. A `ValueError` is `none`. -/
def pkcs7unpad (bs : Nat) (l : List Nat) : Option (List Nat) :=
  match l.getLast? with
  | none => none
  | some n =>
    if n = 0 ∨ bs < n ∨ l.length % bs ≠ 0 ∨ l.length < n then none
    else if l.drop (l.length - n) = List.replicate n n then some (l.take (l.length - n))
    else none

/-- CBC encryption over a list of 16-byte plaintext blocks:
`c_i = E(c_{i-1} XOR p_i)` with `c_{-1}` the IV. The block primitive
`encB` is `AES.new(key, MODE_CBC, iv)`'s underlying AES-256 permutation
(an external library function, so a parameter); it may fail, as any
cipher-library fault surfaces as an exception in the source. -/
def cbcEncryptBlocks (encB : List Nat → Except String (List Nat)) :
    List Nat → List (List Nat) → Except String (List (List Nat))
  | _, [] => .ok []
  | prev, b :: rest =>
    match encB (xorBytes prev b) with
    | .error e => .error e
    | .ok c =>
      match cbcEncryptBlocks encB c rest with
      | .error e => .error e
      | .ok cs => .ok (c :: cs)

/-- CBC decryption over ciphertext blocks: `p_i = D(c_i) XOR c_{i-1}`.
The source never decrypts; this is the spec's round-trip verification
operation (`AES-256-CBC decryption`), with `decB` the inverse AES-256
block permutation. -/
def cbcDecryptBlocks (decB : List Nat → List Nat) :
    List Nat → List (List Nat) → List (List Nat)
  | _, [] => []
  | prev, c :: rest => xorBytes prev (decB c) :: cbcDecryptBlocks decB c rest

/-! ## `encryption_utils.py` -/

/-- Embedding of `get_encryption_key()`: resolve the AES-256 key from the environment
(`envKey` is `os.environ.get('ENCRYPTION_KEY')`), falling back to the
fixed development default; UTF-8 encode, truncate to 32 bytes and
right-justify with ASCII `'0'` (0x30). -/
def get_encryption_key (envKey : Option String) : List Nat :=
  let key := envKey.getD "dev_aes_256_key_32_bytes_long_12345678901234567890"
  let b := (utf8Bytes key).take 32
  b ++ List.replicate (32 - b.length) 48

/-- Embedding of `encrypt_file_content(file_content)` with the key already resolved
into the block primitive `encB`: draw a fresh 16-byte IV from the
entropy stream, PKCS#7-pad to the AES block size, CBC-encrypt; returns
`(encrypted_content, iv)`. -/
def encrypt_file_content (encB : List Nat → Except String (List Nat))
    (stream : Nat → Nat) (file_content : List Nat) :
    Except String (List Nat × List Nat) :=
  let iv := get_random_bytes 16 stream
  let padded_content := pkcs7pad 16 file_content
  match cbcEncryptBlocks encB iv (chunk 16 padded_content) with
  | .error e => .error e
  | .ok cs => .ok (cs.flatten, iv)

/-- The spec's decryption of a sealed payload: CBC-decrypt with the same
key's inverse block permutation and the seal's IV, then unpad. -/
def decrypt_file_content (decB : List Nat → List Nat) (iv ct : List Nat) :
    Option (List Nat) :=
  pkcs7unpad 16 ((cbcDecryptBlocks decB iv (chunk 16 ct)).flatten)

/-- Embedding of `generate_sha3_512_hash(content)`: the hex SHA3-512 digest. -/
def generate_sha3_512_hash (content : List Nat) : String :=
  hexOfBytes (sha3_512 content)

/-- Embedding of `generate_sha256_hash(content)`: the hex SHA-256 digest of the UTF-8
bytes of a string. -/
def generate_sha256_hash (content : String) : String :=
  hexOfBytes (sha256 (utf8Bytes content))

/-! ## Base64 (`base64.b64encode`) -/

/-- The base64 alphabet. -/
def b64Char (n : Nat) : Char :=
  "ABCDEFGHIJKLMNOPQRSTUVWXYZabcdefghijklmnopqrstuvwxyz0123456789+/".data.getD n 'A'

/-- RFC 4648 base64 characters of a byte list, with `=` padding. -/
def base64Chars : List Nat → List Char
  | [] => []
  | [a] => [b64Char (a / 4), b64Char (a % 4 * 16), '=', '=']
  | [a, b] => [b64Char (a / 4), b64Char (a % 4 * 16 + b / 16), b64Char (b % 16 * 4), '=']
  | a :: b :: c :: rest =>
    b64Char (a / 4) :: b64Char (a % 4 * 16 + b / 16) ::
    b64Char (b % 16 * 4 + c / 64) :: b64Char (c % 64) :: base64Chars rest

/-- Embedding of `base64.b64encode(content).decode('utf-8')`. -/
def base64Encode (content : List Nat) : String := String.mk (base64Chars content)

/-! ## `server.py` — models -/

/-- The stored bid document (`sealed_bid` dict / `SealedBid` model). -/
structure SealedBid where
  tenderId : String
  bidHash : String
  timestamp : String
  bidderId : String
  status : String
  encryptedFileBase64 : Option String
  iv : Option String
deriving DecidableEq

/-- The `/seal-bid` response model. -/
structure SealBidResponse where
  success : Bool
  bidHash : String
  message : String
  bidderId : String
deriving DecidableEq

/-- The `/tender-update` request model. -/
structure TenderUpdate where
  tenderId : String
  updateContent : String
  updatedBy : String
deriving DecidableEq

/-- The stored tender-update document (`tender_update_doc` dict). -/
structure TenderUpdateDoc where
  tenderId : String
  updateContent : String
  updatedBy : String
  updateHash : String
  timestamp : String
deriving DecidableEq

/-- The `/tender-update` response model. -/
structure TenderUpdateResponse where
  success : Bool
  updateHash : String
  timestamp : String
deriving DecidableEq

/-- The audit-log entry model: exactly the five projected fields of
`AuditLogEntry` — no payload, no IV. -/
structure AuditLogEntry where
  tenderId : String
  bidHash : String
  timestamp : String
  bidderId : String
  status : String
deriving DecidableEq

/-! ## `server.py` — routes -/

/-- Embedding of `seal_bid(file, tender_id)`: encrypt the uploaded content, hash the
ciphertext with SHA3-512, assemble the sealed-bid document and append it
to `db.bids` with a single `insert_one`. `encBlock` is the AES-256 block
primitive keyed by the resolved key; `bidder_id` models `uuid.uuid4()`
and `timestamp` models `datetime.now(timezone.utc).isoformat()`. Any
exception raised before the insert surfaces as the HTTP 500 branch and
leaves the store untouched. -/
def seal_bid (encBlock : List Nat → List Nat → Except String (List Nat))
    (envKey : Option String) (stream : Nat → Nat)
    (tender_id : String) (file_content : List Nat)
    (bidder_id timestamp : String) (bids : List SealedBid) :
    Except String SealBidResponse × List SealedBid :=
  let key := get_encryption_key envKey
  match encrypt_file_content (encBlock key) stream file_content with
  | .error e => (.error ("Failed to seal bid: " ++ e), bids)
  | .ok (encrypted_content, iv) =>
    let bid_hash := generate_sha3_512_hash encrypted_content
    let sealed_bid : SealedBid :=
      { tenderId := tender_id, bidHash := bid_hash, timestamp := timestamp,
        bidderId := bidder_id, status := "SEALED",
        encryptedFileBase64 := some (base64Encode encrypted_content),
        iv := some (base64Encode iv) }
    (.ok { success := true, bidHash := bid_hash,
           message := "Bid sealed successfully with AES-256 encryption",
           bidderId := bidder_id }, bids ++ [sealed_bid])

/-- Embedding of `tender_update(update)`: hash `f"{tenderId}:{updateContent}:{updatedBy}"`
with SHA-256, stamp the timestamp, append the document to
`db.tender_updates`, return the response. -/
def tender_update (update : TenderUpdate) (timestamp : String)
    (store : List TenderUpdateDoc) : TenderUpdateResponse × List TenderUpdateDoc :=
  let update_content := update.tenderId ++ ":" ++ update.updateContent ++ ":" ++ update.updatedBy
  let update_hash := generate_sha256_hash update_content
  let tender_update_doc : TenderUpdateDoc :=
    { tenderId := update.tenderId, updateContent := update.updateContent,
      updatedBy := update.updatedBy, updateHash := update_hash, timestamp := timestamp }
  ({ success := true, updateHash := update_hash, timestamp := timestamp },
   store ++ [tender_update_doc])

/-- Insert a bid into a list kept sorted by `timestamp` descending. -/
def insertByTs (b : SealedBid) : List SealedBid → List SealedBid
  | [] => [b]
  | c :: rest =>
    if c.timestamp ≤ b.timestamp then b :: c :: rest else c :: insertByTs b rest

/-- Sort bids by `timestamp` descending — the result of MongoDB's
`.sort("timestamp", -1)` on ISO-8601 timestamp strings, which compares
strings lexicographically. -/
def sortByTsDesc : List SealedBid → List SealedBid
  | [] => []
  | b :: rest => insertByTs b (sortByTsDesc rest)

/-- The field projection of the audit-log query
(`{"_id": 0, "tenderId": 1, "bidHash": 1, "timestamp": 1, "bidderId": 1,
"status": 1}`). -/
def projectAuditEntry (b : SealedBid) : AuditLogEntry :=
  { tenderId := b.tenderId, bidHash := b.bidHash, timestamp := b.timestamp,
    bidderId := b.bidderId, status := b.status }

/-- Embedding of `get_audit_log()`: read `db.bids`, sort by timestamp descending, take
at most 1000, project to the five audit fields. The read returns the
store unchanged — it issues no write. -/
def get_audit_log (bids : List SealedBid) : List AuditLogEntry × List SealedBid :=
  (((sortByTsDesc bids).map projectAuditEntry).take 1000, bids)

/-- The development fallback key material actually used: the documented
dev key string, UTF-8-encoded and truncated to its first 32 bytes
(`b"dev_aes_256_key_32_bytes_long_12"`). -/
def devFallbackKey : List Nat :=
  [100, 101, 118, 95, 97, 101, 115, 95, 50, 53, 54, 95, 107, 101, 121, 95,
   51, 50, 95, 98, 121, 116, 101, 115, 95, 108, 111, 110, 103, 95, 49, 50]

/-- The defensive stripping the spec reasons about: same record with the
encrypted payload and IV removed. -/
def stripPayload (b : SealedBid) : SealedBid :=
  { b with encryptedFileBase64 := none, iv := none }

/-- The concatenated hash input of `tender_update`:
`f"{tenderId}:{updateContent}:{updatedBy}"`. -/
def updateConcat (u : TenderUpdate) : String :=
  u.tenderId ++ ":" ++ u.updateContent ++ ":" ++ u.updatedBy

/-- A string of `n` copies of `'a'`. -/
def aString (n : Nat) : String := String.mk (List.replicate n 'a')

/-- The `i`-th byte (mod 256) of the SHA-256 digest of an update's
concatenated hash input — a map into a finite type. -/
def updateDigestByte (u : TenderUpdate) (i : Fin 32) : Fin 256 :=
  ⟨(sha256 (utf8Bytes (updateConcat u))).getD i.val 0 % 256,
   Nat.mod_lt _ (by decide)⟩

/-! ## Helper lemmas: chunking -/

theorem chunkAux_fuel_irrel (n : Nat) (hn : 0 < n) :
    ∀ (fuel : Nat) (l : List Nat) (fuel2 : Nat), l.length ≤ fuel → l.length ≤ fuel2 →
      chunkAux n fuel l = chunkAux n fuel2 l := by
  intro fuel
  induction fuel with
  | zero =>
    intro l fuel2 hl _
    have : l = [] := List.eq_nil_of_length_eq_zero (Nat.le_zero.mp hl)
    subst this
    cases fuel2 <;> rfl
  | succ fuel ih =>
    intro l fuel2 hl hl2
    match l with
    | [] => cases fuel2 <;> rfl
    | x :: xs =>
      match fuel2 with
      | 0 => simp at hl2
      | fuel2 + 1 =>
        simp only [chunkAux]
        congr 1
        apply ih
        · simp only [List.length_drop, List.length_cons]
          simp only [List.length_cons] at hl
          omega
        · simp only [List.length_drop, List.length_cons]
          simp only [List.length_cons] at hl2
          omega

theorem chunkAux_mono (n : Nat) (hn : 0 < n) (fuel : Nat) (l : List Nat)
    (h : l.length ≤ fuel) : chunkAux n fuel l = chunkAux n l.length l :=
  chunkAux_fuel_irrel n hn fuel l l.length h le_rfl

theorem chunk_cons_append (n : Nat) (hn : 0 < n) (b r : List Nat)
    (hb : b.length = n) : chunk n (b ++ r) = b :: chunk n r := by
  have hne : b ++ r ≠ [] := by
    intro h
    have := congrArg List.length h
    simp [hb] at this
    omega
  match hbr : b ++ r with
  | [] => exact absurd hbr hne
  | x :: xs =>
    unfold chunk
    rw [← hbr]
    have hlen : (b ++ r).length = n + r.length := by simp [hb]
    rw [hlen]
    have : chunkAux n (n + r.length) (b ++ r)
        = (b ++ r).take n :: chunkAux n (n + r.length - 1) ((b ++ r).drop n) := by
      rw [hbr]
      have : n + r.length = (n + r.length - 1) + 1 := by omega
      rw [this]
      rfl
    rw [this]
    have htake : (b ++ r).take n = b := by rw [← hb]; exact List.take_left _ _
    have hdrop' : (b ++ r).drop n = r := by rw [← hb]; exact List.drop_left _ _
    rw [htake, hdrop']
    congr 1
    have : r.length ≤ n + r.length - 1 := by omega
    exact chunkAux_mono n hn _ r this

theorem chunk_nil (n : Nat) : chunk n [] = [] := rfl

/-- Chunking inverts flattening on lists of `n`-byte blocks. -/
theorem chunk_flatten (n : Nat) (hn : 0 < n) :
    ∀ (bs : List (List Nat)), (∀ b ∈ bs, b.length = n) →
      chunk n bs.flatten = bs := by
  intro bs
  induction bs with
  | nil => intro _; rfl
  | cons b rest ih =>
    intro hlen
    have hb : b.length = n := hlen b (by simp)
    simp only [List.flatten_cons]
    rw [chunk_cons_append n hn b rest.flatten hb]
    congr 1
    exact ih (fun x hx => hlen x (by simp [hx]))

/-- Flattening inverts chunking. -/
theorem flatten_chunk (n : Nat) (hn : 0 < n) (l : List Nat) :
    (chunk n l).flatten = l := by
  suffices h : ∀ (fuel : Nat) (l : List Nat), l.length ≤ fuel →
      (chunkAux n fuel l).flatten = l by
    exact h l.length l le_rfl
  intro fuel
  induction fuel with
  | zero =>
    intro l hl
    have : l = [] := List.eq_nil_of_length_eq_zero (Nat.le_zero.mp hl)
    subst this; rfl
  | succ fuel ih =>
    intro l hl
    match l with
    | [] => rfl
    | x :: xs =>
      simp only [chunkAux, List.flatten_cons]
      rw [ih ((x :: xs).drop n) (by simp only [List.length_drop, List.length_cons]; simp only [List.length_cons] at hl; omega)]
      exact List.take_append_drop n (x :: xs)

/-- Every block produced by `chunk n` on a block-aligned list has
length `n`. -/
theorem chunk_block_length (n : Nat) (hn : 0 < n) :
    ∀ (l : List Nat), l.length % n = 0 → ∀ b ∈ chunk n l, b.length = n := by
  suffices h : ∀ (fuel : Nat) (l : List Nat), l.length ≤ fuel → l.length % n = 0 →
      ∀ b ∈ chunkAux n fuel l, b.length = n by
    intro l hmod
    exact h l.length l le_rfl hmod
  intro fuel
  induction fuel with
  | zero =>
    intro l hl _ b hb
    have : l = [] := List.eq_nil_of_length_eq_zero (Nat.le_zero.mp hl)
    subst this
    simp [chunkAux] at hb
  | succ fuel ih =>
    intro l hl hmod b hb
    match l with
    | [] => simp [chunkAux] at hb
    | x :: xs =>
      simp only [chunkAux, List.mem_cons] at hb
      have hxlen : n ≤ (x :: xs).length := by
        by_contra hcon
        push_neg at hcon
        have h1 : (x :: xs).length % n = (x :: xs).length := Nat.mod_eq_of_lt hcon
        rw [h1] at hmod
        simp at hmod
      rcases hb with hb | hb
      · subst hb
        simp only [List.length_cons] at hxlen
        simp [List.length_take]
        omega
      · apply ih ((x :: xs).drop n) _ _ b hb
        · simp only [List.length_drop, List.length_cons]
          simp only [List.length_cons] at hl
          omega
        · simp only [List.length_drop]
          have hdvd : n ∣ (x :: xs).length := Nat.dvd_of_mod_eq_zero hmod
          exact Nat.mod_eq_zero_of_dvd (Nat.dvd_sub' hdvd dvd_rfl)

/-! ## Helper lemmas: XOR and padding -/

theorem xorBytes_length (a b : List Nat) :
    (xorBytes a b).length = min a.length b.length := by
  simp [xorBytes]

theorem xorBytes_xorBytes_cancel :
    ∀ (p b : List Nat), p.length = b.length → xorBytes p (xorBytes p b) = b := by
  intro p
  induction p with
  | nil =>
    intro b hb
    simp only [List.length_nil] at hb
    have hbnil : b = [] := List.eq_nil_of_length_eq_zero hb.symm
    subst hbnil; rfl
  | cons x xs ih =>
    intro b hb
    match b with
    | [] => simp at hb
    | y :: ys =>
      simp only [xorBytes, List.zipWith_cons_cons, List.cons.injEq]
      refine ⟨?_, ?_⟩
      · show x ^^^ (x ^^^ y) = y
        rw [← Nat.xor_assoc, Nat.xor_self, Nat.zero_xor]
      · exact ih ys (by simp only [List.length_cons] at hb; omega)

theorem pkcs7pad_length_mod (bs : Nat) (hbs : 0 < bs) (l : List Nat) :
    (pkcs7pad bs l).length % bs = 0 := by
  simp only [pkcs7pad, List.length_append, List.length_replicate]
  have h1 : l.length % bs < bs := Nat.mod_lt _ hbs
  have h2 := Nat.div_add_mod l.length bs
  have h3 : l.length + (bs - l.length % bs) = bs * (l.length / bs + 1) := by
    rw [Nat.mul_add, Nat.mul_one]
    omega
  rw [h3]
  exact Nat.mul_mod_right _ _

/-- PKCS#7 unpadding inverts PKCS#7 padding. -/
theorem pkcs7unpad_pkcs7pad (bs : Nat) (hbs : 0 < bs) (l : List Nat) :
    pkcs7unpad bs (pkcs7pad bs l) = some l := by
  have hmodlt : l.length % bs < bs := Nat.mod_lt _ hbs
  set n := bs - l.length % bs with hn
  have hn1 : 1 ≤ n := by omega
  have hnbs : n ≤ bs := by omega
  have hrep_ne : (List.replicate n n : List Nat) ≠ [] := by
    intro hh
    have := congrArg List.length hh
    simp at this
    omega
  have hlen : (pkcs7pad bs l).length = l.length + n := by
    simp [pkcs7pad, ← hn]
  have hlast : (pkcs7pad bs l).getLast? = some n := by
    simp only [pkcs7pad, ← hn]
    rw [List.getLast?_append_of_ne_nil _ hrep_ne]
    rw [List.getLast?_replicate]
    rw [if_neg (by omega)]
  have hmod0 : (pkcs7pad bs l).length % bs = 0 := pkcs7pad_length_mod bs hbs l
  simp only [pkcs7unpad, hlast]
  have hcond : ¬(n = 0 ∨ bs < n ∨ (pkcs7pad bs l).length % bs ≠ 0 ∨ (pkcs7pad bs l).length < n) := by
    push_neg
    exact ⟨by omega, by omega, hmod0, by omega⟩
  rw [if_neg hcond]
  have hdroplen : (pkcs7pad bs l).length - n = l.length := by omega
  have hdrop : (pkcs7pad bs l).drop ((pkcs7pad bs l).length - n) = List.replicate n n := by
    rw [hdroplen]
    simp only [pkcs7pad, ← hn]
    exact List.drop_left _ _
  have htake : (pkcs7pad bs l).take ((pkcs7pad bs l).length - n) = l := by
    rw [hdroplen]
    simp only [pkcs7pad, ← hn]
    exact List.take_left _ _
  rw [if_pos hdrop, htake]

/-! ## Helper lemmas: CBC -/

/-- CBC decryption inverts CBC encryption block-by-block, provided the
block primitive pair is inverse on 16-byte blocks; the ciphertext blocks
all have length 16. -/
theorem cbcDecryptBlocks_cbcEncryptBlocks
    (encB : List Nat → Except String (List Nat)) (decB : List Nat → List Nat)
    (hcipher : ∀ b c, b.length = 16 → encB b = .ok c → decB c = b ∧ c.length = 16) :
    ∀ (bs : List (List Nat)) (prev : List Nat) (cs : List (List Nat)),
      prev.length = 16 → (∀ b ∈ bs, b.length = 16) →
      cbcEncryptBlocks encB prev bs = .ok cs →
      cbcDecryptBlocks decB prev cs = bs ∧ ∀ c ∈ cs, c.length = 16 := by
  intro bs
  induction bs with
  | nil =>
    intro prev cs _ _ henc
    simp only [cbcEncryptBlocks] at henc
    cases henc
    exact ⟨rfl, by intro c hc; simp at hc⟩
  | cons b rest ih =>
    intro prev cs hprev hblocks henc
    simp only [cbcEncryptBlocks] at henc
    split at henc
    next e hc => cases henc
    next c hc =>
      split at henc
      next e hcs => cases henc
      next cs' hcs =>
        cases henc
        have hxlen : (xorBytes prev b).length = 16 := by
          rw [xorBytes_length, hprev, hblocks b (by simp)]
          simp
        obtain ⟨hdec, hclen⟩ := hcipher _ _ hxlen hc
        obtain ⟨hrest, hcs'len⟩ :=
          ih c cs' hclen (fun x hx => hblocks x (by simp [hx])) hcs
        refine ⟨?_, ?_⟩
        · simp only [cbcDecryptBlocks, hdec, hrest]
          rw [xorBytes_xorBytes_cancel prev b (by rw [hprev, hblocks b (by simp)])]
        · intro x hx
          rcases List.mem_cons.mp hx with hx | hx
          · subst hx; exact hclen
          · exact hcs'len x hx

/-- C1: for every plaintext byte sequence `content`, decrypting the
`encryptedPayload` returned by a seal's `encrypt_file_content` call with
the process key and the `initializationVector` returned by that same call
(AES-256-CBC decryption followed by PKCS#7 unpadding) recovers exactly
`content` — for any AES block primitive pair that is inverse and
length-preserving on 16-byte blocks, which is the contract of the
`Crypto.Cipher.AES` library permutation under the process key. -/
theorem C1_seal_decrypt_roundtrip
    (encB : List Nat → Except String (List Nat)) (decB : List Nat → List Nat)
    (hcipher : ∀ b c, b.length = 16 → encB b = .ok c → decB c = b ∧ c.length = 16)
    (stream : Nat → Nat) (content ct iv : List Nat)
    (henc : encrypt_file_content encB stream content = .ok (ct, iv)) :
    decrypt_file_content decB iv ct = some content := by
  simp only [encrypt_file_content] at henc
  split at henc
  next e hcbc => cases henc
  next cs hcbc =>
    cases henc
    have hivlen : (get_random_bytes 16 stream).length = 16 := by
      simp [get_random_bytes]
    have hblocks : ∀ b ∈ chunk 16 (pkcs7pad 16 content), b.length = 16 :=
      chunk_block_length 16 (by omega) _ (pkcs7pad_length_mod 16 (by omega) content)
    obtain ⟨hdec, hcslen⟩ := cbcDecryptBlocks_cbcEncryptBlocks encB decB hcipher
      _ _ cs hivlen hblocks hcbc
    simp only [decrypt_file_content]
    rw [chunk_flatten 16 (by omega) cs hcslen, hdec,
      flatten_chunk 16 (by omega) (pkcs7pad 16 content),
      pkcs7unpad_pkcs7pad 16 (by omega) content]

/-- Witness for C1: the identity block permutation (a valid inverse pair)
on plaintext `[1, 2, 3]` with the zero entropy stream round-trips. -/
theorem C1_seal_decrypt_roundtrip_witness :
    decrypt_file_content (fun c => c) (List.replicate 16 0)
      ([1, 2, 3] ++ List.replicate 13 13) = some [1, 2, 3] :=
  C1_seal_decrypt_roundtrip (fun b => .ok b) (fun c => c)
    (fun b c hb hc => by cases hc; exact ⟨rfl, hb⟩)
    (fun _ => 0) [1, 2, 3] ([1, 2, 3] ++ List.replicate 13 13) (List.replicate 16 0)
    (by rfl)

/-! ## Helper lemmas: digest lengths and byte bounds -/

theorem sha3_512_length (m : List Nat) : (sha3_512 m).length = 64 := by
  simp [sha3_512, leBytes8]

theorem sha256_length (m : List Nat) : (sha256 m).length = 32 := by
  simp [sha256, beBytes]

theorem sha256_byte_lt (m : List Nat) : ∀ b ∈ sha256 m, b < 256 := by
  intro b hb
  simp only [sha256, beBytes, List.mem_append, List.mem_map, List.mem_range] at hb
  rcases hb with ((((((hb | hb) | hb) | hb) | hb) | hb) | hb) | hb <;>
    · obtain ⟨i, _, hi⟩ := hb
      omega

theorem hexChars_length (l : List Nat) :
    (l.flatMap (fun b => [hexDigitChar (b / 16), hexDigitChar (b % 16)])).length
      = 2 * l.length := by
  induction l with
  | nil => rfl
  | cons x xs ih =>
    rw [List.flatMap_cons]
    simp [ih]
    omega

theorem hexOfBytes_length (l : List Nat) : (hexOfBytes l).length = 2 * l.length := by
  show (l.flatMap (fun b => [hexDigitChar (b / 16), hexDigitChar (b % 16)])).length
    = 2 * l.length
  exact hexChars_length l

theorem generate_sha3_512_hash_length (content : List Nat) :
    (generate_sha3_512_hash content).length = 128 := by
  simp [generate_sha3_512_hash, hexOfBytes_length, sha3_512_length]

theorem get_random_bytes_length (n : Nat) (stream : Nat → Nat) :
    (get_random_bytes n stream).length = n := by
  simp [get_random_bytes]

/-- C2: every successful seal returns a `bidHash` that is the hex SHA3-512
digest of the encrypted payload bytes (the same ciphertext stored base64
in the record — not the plaintext), the hex fingerprint is 128 characters
long, and the IV drawn by `get_random_bytes(16)` is exactly 16 bytes. -/
theorem C2_seal_fingerprint_shape
    (encBlock : List Nat → List Nat → Except String (List Nat))
    (envKey : Option String) (stream : Nat → Nat)
    (tender_id : String) (file_content : List Nat)
    (bidder_id timestamp : String) (bids : List SealedBid)
    (resp : SealBidResponse)
    (h : (seal_bid encBlock envKey stream tender_id file_content bidder_id
      timestamp bids).1 = .ok resp) :
    resp.bidHash.length = 128 ∧
    (get_random_bytes 16 stream).length = 16 ∧
    ∃ ct, resp.bidHash = generate_sha3_512_hash ct ∧
      (seal_bid encBlock envKey stream tender_id file_content bidder_id
        timestamp bids).2
        = bids ++ [{ tenderId := tender_id, bidHash := generate_sha3_512_hash ct,
                     timestamp := timestamp, bidderId := bidder_id,
                     status := "SEALED",
                     encryptedFileBase64 := some (base64Encode ct),
                     iv := some (base64Encode (get_random_bytes 16 stream)) }] := by
  cases henc : encrypt_file_content (encBlock (get_encryption_key envKey)) stream
      file_content with
  | error e0 =>
    simp only [seal_bid, henc] at h
    cases h
  | ok p =>
    obtain ⟨ct0, iv0⟩ := p
    simp only [seal_bid, henc] at h ⊢
    cases h
    simp only [encrypt_file_content] at henc
    split at henc
    next e0 hcbc => cases henc
    next cs hcbc =>
      cases henc
      exact ⟨generate_sha3_512_hash_length _, get_random_bytes_length _ _,
        cs.flatten, rfl, rfl⟩

/-- Witness for C2: a concrete seal of `b"hello"` under tender
`"TENDER-001"` with the identity block primitive and zero entropy. -/
theorem C2_seal_fingerprint_shape_witness :
    (SealBidResponse.mk true
      (generate_sha3_512_hash ([104, 101, 108, 108, 111] ++ List.replicate 11 11))
      "Bid sealed successfully with AES-256 encryption" "b").bidHash.length = 128 :=
  (C2_seal_fingerprint_shape (fun _ b => .ok b) none (fun _ => 0) "TENDER-001"
    [104, 101, 108, 108, 111] "b" "t" []
    (SealBidResponse.mk true
      (generate_sha3_512_hash ([104, 101, 108, 108, 111] ++ List.replicate 11 11))
      "Bid sealed successfully with AES-256 encryption" "b") (by rfl)).1

/-- C6 counterexample: key derivation never raises a `ConfigurationError`.
With the one-byte configured key material `"x"` (not resolvable to 256
bits without coercion) it silently proceeds, returning the 32-byte key
`b"x" + 31 * b"0"`. -/
theorem C6_counterexample :
    (utf8Bytes "x").length = 1 ∧
    get_encryption_key (some "x") = 120 :: List.replicate 31 48 := by
  exact ⟨rfl, by decide⟩

/-- C6 (amended): key derivation is total — it never fails; any configured
key material (and the fallback) is coerced to exactly 32 bytes (256 bits)
by UTF-8 encoding, truncation to 32 bytes and right-padding with ASCII
`'0'`, so encryption always proceeds with a 256-bit key. -/
theorem C6_key_always_32_bytes (envKey : Option String) :
    (get_encryption_key envKey).length = 32 := by
  simp only [get_encryption_key, List.length_append, List.length_replicate]
  have h := List.length_take_le 32
    (utf8Bytes (envKey.getD "dev_aes_256_key_32_bytes_long_12345678901234567890"))
  omega

/-- C7 counterexample: nothing marks the fallback case. Key derivation
with no configured secret returns output byte-identical to derivation
with a configured key equal to the dev string — the operation's entire
observable output carries no non-production flag, and the source logs
nothing on this path. -/
theorem C7_counterexample :
    get_encryption_key none
      = get_encryption_key (some "dev_aes_256_key_32_bytes_long_12345678901234567890") := rfl

/-- A CBC encryption whose block primitive always succeeds always
succeeds. -/
theorem cbcEncryptBlocks_total_ok (f : List Nat → List Nat) :
    ∀ (prev : List Nat) (bs : List (List Nat)),
      ∃ cs, cbcEncryptBlocks (fun b => .ok (f b)) prev bs = .ok cs := by
  intro prev bs
  induction bs generalizing prev with
  | nil => exact ⟨[], rfl⟩
  | cons b rest ih =>
    obtain ⟨cs, hcs⟩ := ih (f (xorBytes prev b))
    exact ⟨f (xorBytes prev b) :: cs, by simp [cbcEncryptBlocks, hcs]⟩

/-- C7 (amended): with no key secret configured, derivation uses the
fixed development fallback key (its first 32 UTF-8 bytes) and seal
succeeds; but the operation is not marked in any way — sealing with no
configured key is indistinguishable from sealing with the dev string
configured. -/
theorem C7_fallback_seal_succeeds :
    get_encryption_key none = devFallbackKey ∧
    (∀ (f : List Nat → List Nat → List Nat) (stream : Nat → Nat)
       (tender_id : String) (file_content : List Nat)
       (bidder_id timestamp : String) (bids : List SealedBid),
       ∃ resp, (seal_bid (fun k b => .ok (f k b)) none stream tender_id
         file_content bidder_id timestamp bids).1 = .ok resp ∧ resp.success = true) ∧
    (∀ (encBlock : List Nat → List Nat → Except String (List Nat))
       (stream : Nat → Nat) (tender_id : String) (file_content : List Nat)
       (bidder_id timestamp : String) (bids : List SealedBid),
       seal_bid encBlock none stream tender_id file_content bidder_id timestamp bids
         = seal_bid encBlock (some "dev_aes_256_key_32_bytes_long_12345678901234567890")
             stream tender_id file_content bidder_id timestamp bids) := by
  refine ⟨by decide, ?_, fun _ _ _ _ _ _ _ => rfl⟩
  intro f stream tender_id file_content bidder_id timestamp bids
  obtain ⟨cs, hcs⟩ := cbcEncryptBlocks_total_ok (f (get_encryption_key none))
    (get_random_bytes 16 stream) (chunk 16 (pkcs7pad 16 file_content))
  refine ⟨⟨true, generate_sha3_512_hash cs.flatten,
    "Bid sealed successfully with AES-256 encryption", bidder_id⟩, ?_, rfl⟩
  simp only [seal_bid, encrypt_file_content, hcs]

/-- Witness for C7's amended theorem: a concrete unconfigured seal of
`[1, 2, 3]` succeeds. -/
theorem C7_fallback_seal_succeeds_witness :
    ∃ resp, (seal_bid (fun _ b => .ok b) none (fun _ => 0) "T" [1, 2, 3] "b" "t"
      []).1 = .ok resp ∧ resp.success = true :=
  C7_fallback_seal_succeeds.2.1 (fun _ b => b) (fun _ => 0) "T" [1, 2, 3] "b" "t" []

/-- C8: seal commits no partial state. The single store append happens
after all in-memory computation: a seal that fails (any exception in the
encrypt/fingerprint/assemble phase) leaves the bids store exactly
unchanged, and a successful seal appends exactly one complete record. -/
theorem C8_no_partial_state
    (encBlock : List Nat → List Nat → Except String (List Nat))
    (envKey : Option String) (stream : Nat → Nat)
    (tender_id : String) (file_content : List Nat)
    (bidder_id timestamp : String) (bids : List SealedBid) :
    (∀ e, (seal_bid encBlock envKey stream tender_id file_content bidder_id
        timestamp bids).1 = .error e →
      (seal_bid encBlock envKey stream tender_id file_content bidder_id
        timestamp bids).2 = bids) ∧
    (∀ resp, (seal_bid encBlock envKey stream tender_id file_content bidder_id
        timestamp bids).1 = .ok resp →
      ∃ record, (seal_bid encBlock envKey stream tender_id file_content bidder_id
        timestamp bids).2 = bids ++ [record]) := by
  cases henc : encrypt_file_content (encBlock (get_encryption_key envKey)) stream
      file_content with
  | error e0 =>
    refine ⟨fun e _ => ?_, fun resp hresp => ?_⟩
    · simp only [seal_bid, henc]
    · simp only [seal_bid, henc] at hresp
      cases hresp
  | ok p =>
    obtain ⟨ct0, iv0⟩ := p
    refine ⟨fun e he => ?_, fun resp _ => ?_⟩
    · simp only [seal_bid, henc] at he
      cases he
    · simp only [seal_bid, henc]
      exact ⟨_, rfl⟩

/-- Witness for C8: a faulting cipher on a one-record store leaves the
store exactly as it was. -/
theorem C8_no_partial_state_witness :
    (seal_bid (fun _ _ => .error "fault") none (fun _ => 0) "T" [1, 2, 3] "b" "ts"
      [⟨"T0", "h0", "t0", "b0", "SEALED", none, none⟩]).2
      = [⟨"T0", "h0", "t0", "b0", "SEALED", none, none⟩] :=
  (C8_no_partial_state (fun _ _ => .error "fault") none (fun _ => 0) "T" [1, 2, 3]
    "b" "ts" [⟨"T0", "h0", "t0", "b0", "SEALED", none, none⟩]).1
    "Failed to seal bid: fault" (by rfl)

/-! ## Helper lemmas: audit-log sorting and projection -/

theorem mem_insertByTs (b : SealedBid) :
    ∀ (l : List SealedBid) (x : SealedBid), x ∈ insertByTs b l → x = b ∨ x ∈ l := by
  intro l
  induction l with
  | nil =>
    intro x hx
    simp [insertByTs] at hx
    exact Or.inl hx
  | cons c rest ih =>
    intro x hx
    simp only [insertByTs] at hx
    by_cases h : c.timestamp ≤ b.timestamp
    · rw [if_pos h] at hx
      rcases List.mem_cons.mp hx with hx | hx
      · exact Or.inl hx
      · exact Or.inr hx
    · rw [if_neg h] at hx
      rcases List.mem_cons.mp hx with hx | hx
      · exact Or.inr (by simp [hx])
      · rcases ih x hx with hx | hx
        · exact Or.inl hx
        · exact Or.inr (by simp [hx])

theorem insertByTs_pairwise (b : SealedBid) :
    ∀ (l : List SealedBid),
      l.Pairwise (fun a c => c.timestamp ≤ a.timestamp) →
      (insertByTs b l).Pairwise (fun a c => c.timestamp ≤ a.timestamp) := by
  intro l
  induction l with
  | nil =>
    intro _
    simp [insertByTs]
  | cons c rest ih =>
    intro hl
    rw [List.pairwise_cons] at hl
    obtain ⟨hc, hrest⟩ := hl
    simp only [insertByTs]
    by_cases h : c.timestamp ≤ b.timestamp
    · rw [if_pos h]
      rw [List.pairwise_cons]
      refine ⟨?_, List.pairwise_cons.mpr ⟨hc, hrest⟩⟩
      intro x hx
      rcases List.mem_cons.mp hx with hx | hx
      · subst hx; exact h
      · exact le_trans (hc x hx) h
    · rw [if_neg h]
      rw [List.pairwise_cons]
      refine ⟨?_, ih hrest⟩
      intro x hx
      rcases mem_insertByTs b rest x hx with hx | hx
      · subst hx
        exact le_of_not_le h
      · exact hc x hx

theorem sortByTsDesc_pairwise (l : List SealedBid) :
    (sortByTsDesc l).Pairwise (fun a c => c.timestamp ≤ a.timestamp) := by
  induction l with
  | nil => simp [sortByTsDesc]
  | cons b rest ih => exact insertByTs_pairwise b _ ih

theorem mem_sortByTsDesc (l : List SealedBid) (x : SealedBid)
    (hx : x ∈ sortByTsDesc l) : x ∈ l := by
  induction l generalizing x with
  | nil => simp [sortByTsDesc] at hx
  | cons b rest ih =>
    simp only [sortByTsDesc] at hx
    rcases mem_insertByTs b _ x hx with h | h
    · simp [h]
    · simp [ih x h]

theorem stripPayload_timestamp (b : SealedBid) :
    (stripPayload b).timestamp = b.timestamp := rfl

theorem projectAuditEntry_stripPayload (b : SealedBid) :
    projectAuditEntry (stripPayload b) = projectAuditEntry b := rfl

theorem insertByTs_map_strip (b : SealedBid) :
    ∀ (l : List SealedBid),
      insertByTs (stripPayload b) (l.map stripPayload)
        = (insertByTs b l).map stripPayload := by
  intro l
  induction l with
  | nil => rfl
  | cons c rest ih =>
    simp only [List.map_cons, insertByTs, stripPayload_timestamp]
    by_cases h : c.timestamp ≤ b.timestamp
    · rw [if_pos h, if_pos h]
      simp
    · rw [if_neg h, if_neg h, List.map_cons, ih]

theorem sortByTsDesc_map_strip :
    ∀ (l : List SealedBid),
      sortByTsDesc (l.map stripPayload) = (sortByTsDesc l).map stripPayload := by
  intro l
  induction l with
  | nil => rfl
  | cons b rest ih =>
    simp only [List.map_cons, sortByTsDesc, ih]
    exact insertByTs_map_strip b (sortByTsDesc rest)

/-- C4: every entry the audit-trail read path returns carries exactly the
five projected fields `{tenderId, bidHash, timestamp, bidderId, status}`
of some stored record (its type `AuditLogEntry` has no other field), and
the read path never depends on — hence never includes — the encrypted
payload or the IV: erasing both fields from every stored record leaves
the returned entries byte-identical. -/
theorem C4_audit_projection (bids : List SealedBid) :
    (∀ e ∈ (get_audit_log bids).1, ∃ b ∈ bids,
      e.tenderId = b.tenderId ∧ e.bidHash = b.bidHash ∧ e.timestamp = b.timestamp ∧
      e.bidderId = b.bidderId ∧ e.status = b.status) ∧
    (get_audit_log (bids.map stripPayload)).1 = (get_audit_log bids).1 := by
  constructor
  · intro e he
    simp only [get_audit_log] at he
    have he2 : e ∈ (sortByTsDesc bids).map projectAuditEntry :=
      List.mem_of_mem_take he
    obtain ⟨b, hb, hproj⟩ := List.mem_map.mp he2
    refine ⟨b, mem_sortByTsDesc bids b hb, ?_⟩
    subst hproj
    exact ⟨rfl, rfl, rfl, rfl, rfl⟩
  · simp only [get_audit_log]
    rw [sortByTsDesc_map_strip, List.map_map]
    congr 1

/-- Witness for C4 on a concrete one-record store. -/
theorem C4_audit_projection_witness :
    ∃ b ∈ [SealedBid.mk "T" "h" "ts" "bd" "SEALED" (some "p") (some "i")],
      (AuditLogEntry.mk "T" "h" "ts" "bd" "SEALED").tenderId = b.tenderId ∧
      (AuditLogEntry.mk "T" "h" "ts" "bd" "SEALED").bidHash = b.bidHash ∧
      (AuditLogEntry.mk "T" "h" "ts" "bd" "SEALED").timestamp = b.timestamp ∧
      (AuditLogEntry.mk "T" "h" "ts" "bd" "SEALED").bidderId = b.bidderId ∧
      (AuditLogEntry.mk "T" "h" "ts" "bd" "SEALED").status = b.status :=
  (C4_audit_projection [SealedBid.mk "T" "h" "ts" "bd" "SEALED" (some "p") (some "i")]).1
    (AuditLogEntry.mk "T" "h" "ts" "bd" "SEALED") (by decide)

/-- C5: for every store contents and insertion order, the audit-trail
read returns entries in non-increasing `timestamp` order, returns at most
1000 of them, and leaves the stored records unchanged (the read issues no
write). -/
theorem C5_audit_sorted_limited_pure (bids : List SealedBid) :
    ((get_audit_log bids).1).Pairwise (fun e1 e2 => e2.timestamp ≤ e1.timestamp) ∧
    (get_audit_log bids).1.length ≤ 1000 ∧
    (get_audit_log bids).2 = bids := by
  refine ⟨?_, ?_, rfl⟩
  · have hsorted := sortByTsDesc_pairwise bids
    have hmap : ((sortByTsDesc bids).map projectAuditEntry).Pairwise
        (fun e1 e2 => e2.timestamp ≤ e1.timestamp) :=
      hsorted.map projectAuditEntry (fun a c h => h)
    exact hmap.sublist (List.take_sublist _ _)
  · simp only [get_audit_log]
    exact List.length_take_le _ _

/-! ## C3 / C10: the governance update hash -/

theorem aString_injective : Function.Injective aString := by
  intro n m h
  have h2 := congrArg (fun s => s.data.length) h
  simpa [aString] using h2

theorem updateConcat_aString_ne {n m : Nat} (hnm : n ≠ m) :
    updateConcat ⟨"", "", aString n⟩ ≠ updateConcat ⟨"", "", aString m⟩ := by
  intro h
  apply hnm
  apply aString_injective
  have hd := congrArg String.data h
  simp only [updateConcat, String.data_append] at hd
  have : (aString n).data = (aString m).data := by
    simpa using hd
  cases hn : aString n
  cases hm : aString m
  rw [hn, hm] at this
  simp at this
  simp [hn, hm, this]

theorem digest_eq_of_updateDigestByte_eq {u1 u2 : TenderUpdate}
    (h : updateDigestByte u1 = updateDigestByte u2) :
    sha256 (utf8Bytes (updateConcat u1)) = sha256 (utf8Bytes (updateConcat u2)) := by
  apply List.ext_getElem (by rw [sha256_length, sha256_length])
  intro i h1 h2
  have hi : i < 32 := by rw [sha256_length] at h1; exact h1
  have hfe := congrArg Fin.val (congrFun h ⟨i, hi⟩)
  simp only [updateDigestByte] at hfe
  rw [List.getD_eq_getElem _ 0 h1, List.getD_eq_getElem _ 0 h2] at hfe
  have hb1 : (sha256 (utf8Bytes (updateConcat u1)))[i] < 256 :=
    sha256_byte_lt _ _ (List.getElem_mem h1)
  have hb2 : (sha256 (utf8Bytes (updateConcat u2)))[i] < 256 :=
    sha256_byte_lt _ _ (List.getElem_mem h2)
  rwa [Nat.mod_eq_of_lt hb1, Nat.mod_eq_of_lt hb2] at hfe

/-- C3 counterexample: it is not true that any two calls whose
concatenated hash inputs differ produce different update hashes. SHA-256
maps the infinitely many distinct inputs into finitely many 32-byte
digests, so two distinct concatenations share a hash (pigeonhole); hence
the universally quantified distinctness in the claim is false. -/
theorem C3_counterexample :
    ¬ (∀ u1 u2 : TenderUpdate,
        u1.tenderId ++ ":" ++ u1.updateContent ++ ":" ++ u1.updatedBy
          ≠ u2.tenderId ++ ":" ++ u2.updateContent ++ ":" ++ u2.updatedBy →
        (tender_update u1 "t" []).1.updateHash
          ≠ (tender_update u2 "t" []).1.updateHash) := by
  intro hclaim
  obtain ⟨n, m, hnm, heq⟩ := Finite.exists_ne_map_eq_of_infinite
    (fun n : ℕ => updateDigestByte ⟨"", "", aString n⟩)
  have hdig := digest_eq_of_updateDigestByte_eq heq
  have hhash : (tender_update ⟨"", "", aString n⟩ "t" []).1.updateHash
      = (tender_update ⟨"", "", aString m⟩ "t" []).1.updateHash := by
    show hexOfBytes (sha256 (utf8Bytes (updateConcat ⟨"", "", aString n⟩)))
      = hexOfBytes (sha256 (utf8Bytes (updateConcat ⟨"", "", aString m⟩)))
    exact congrArg hexOfBytes hdig
  exact hclaim ⟨"", "", aString n⟩ ⟨"", "", aString m⟩
    (updateConcat_aString_ne hnm) hhash

set_option maxRecDepth 100000 in
/-- C3 (amended): `tender_update` computes `updateHash` as the hex
SHA-256 digest of the UTF-8 string `tenderId + ":" + updateContent + ":"
+ updatedBy` in exactly that order; calls with identical argument triples
yield byte-identical hashes (independent of timestamp and store); and in
the concrete scenario, changing `updatedBy` from `"admin"` to `"other"`
changes the hash. (Distinct concatenated strings do not in general force
distinct hashes: SHA-256 has collisions by pigeonhole — see the
counterexample.) -/
theorem C3_update_hash_deterministic :
    (∀ (u : TenderUpdate) (ts : String) (store : List TenderUpdateDoc),
      (tender_update u ts store).1.updateHash
        = generate_sha256_hash
            (u.tenderId ++ ":" ++ u.updateContent ++ ":" ++ u.updatedBy)) ∧
    (∀ (u1 u2 : TenderUpdate) (ts1 ts2 : String) (s1 s2 : List TenderUpdateDoc),
      u1.tenderId = u2.tenderId → u1.updateContent = u2.updateContent →
      u1.updatedBy = u2.updatedBy →
      (tender_update u1 ts1 s1).1.updateHash
        = (tender_update u2 ts2 s2).1.updateHash) ∧
    (tender_update ⟨"T1", "x", "admin"⟩ "t" []).1.updateHash
      ≠ (tender_update ⟨"T1", "x", "other"⟩ "t" []).1.updateHash := by
  refine ⟨fun u ts store => rfl, ?_, ?_⟩
  · intro u1 u2 ts1 ts2 s1 s2 h1 h2 h3
    show generate_sha256_hash
        (u1.tenderId ++ ":" ++ u1.updateContent ++ ":" ++ u1.updatedBy)
      = generate_sha256_hash
        (u2.tenderId ++ ":" ++ u2.updateContent ++ ":" ++ u2.updatedBy)
    rw [h1, h2, h3]
  · intro h
    have h2 : hexOfBytes (sha256 (utf8Bytes "T1:x:admin"))
        = hexOfBytes (sha256 (utf8Bytes "T1:x:other")) := h
    revert h2
    decide

/-- Witness for C3: two identical concrete calls agree (hypotheses
discharged by `rfl`), and the concrete `updatedBy` change differs. -/
theorem C3_update_hash_deterministic_witness :
    (tender_update ⟨"T1", "x", "admin"⟩ "2024" []).1.updateHash
      = (tender_update ⟨"T1", "x", "admin"⟩ "2025" [⟨"t", "c", "b", "h", "s"⟩]).1.updateHash :=
  C3_update_hash_deterministic.2.1 ⟨"T1", "x", "admin"⟩ ⟨"T1", "x", "admin"⟩
    "2024" "2025" [] [⟨"t", "c", "b", "h", "s"⟩] rfl rfl rfl

/-- C10: the `":"` delimiter occurs inside fields, so distinct input
triples can concatenate identically and hash identically:
`("a:b", "c", "x")` and `("a", "b:c", "x")` both concatenate to
`"a:b:c:x"`, so `tender_update` gives them the same `updateHash`. -/
theorem C10_delimiter_collision :
    TenderUpdate.mk "a:b" "c" "x" ≠ TenderUpdate.mk "a" "b:c" "x" ∧
    (tender_update ⟨"a:b", "c", "x"⟩ "t" []).1.updateHash
      = (tender_update ⟨"a", "b:c", "x"⟩ "t" []).1.updateHash := by
  refine ⟨by decide, ?_⟩
  show generate_sha256_hash ("a:b" ++ ":" ++ "c" ++ ":" ++ "x")
    = generate_sha256_hash ("a" ++ ":" ++ "b:c" ++ ":" ++ "x")
  rfl

/-! ## Supporting facts for the IV anti-correlation property (C9) -/

theorem take_length_append (l r : List Nat) (n : Nat) (h : l.length = n) :
    (l ++ r).take n = l := by
  subst h
  exact List.take_left l r

theorem xorBytes_right_cancel :
    ∀ (a b p : List Nat), a.length = p.length → b.length = p.length →
      xorBytes a p = xorBytes b p → a = b := by
  intro a
  induction a with
  | nil =>
    intro b p ha hb _
    simp only [List.length_nil] at ha
    have : p = [] := List.eq_nil_of_length_eq_zero ha.symm
    subst this
    exact (List.eq_nil_of_length_eq_zero hb).symm ▸ rfl
  | cons x xs ih =>
    intro b p ha hb hxor
    match b, p with
    | [], _ => simp only [List.length_nil] at hb; simp [← hb] at ha
    | _ :: _, [] => simp at ha
    | y :: ys, q :: qs =>
      simp only [xorBytes, List.zipWith_cons_cons, List.cons.injEq] at hxor
      obtain ⟨hxy, hrest⟩ := hxor
      have hx : x = y := by
        have h1 : x ^^^ q ^^^ q = y ^^^ q ^^^ q := by
          show Nat.xor (Nat.xor x q) q = Nat.xor (Nat.xor y q) q
          rw [hxy]
        rwa [Nat.xor_assoc, Nat.xor_self, Nat.xor_zero,
          Nat.xor_assoc, Nat.xor_self, Nat.xor_zero] at h1
      simp only [List.length_cons] at ha hb
      rw [hx, ih ys qs (by omega) (by omega) hrest]

/-- Two seals of the same plaintext under different IVs produce different
ciphertexts (the first ciphertext blocks already differ), for any block
primitive injective on 16-byte blocks. Whether the SHA3-512 fingerprints
of the two distinct ciphertexts also differ is exactly collision-freeness
of SHA3-512 on that pair, which is neither provable nor refutable here. -/
theorem cbc_ciphertexts_differ_of_iv_ne
    (f : List Nat → List Nat)
    (hlen : ∀ b : List Nat, b.length = 16 → (f b).length = 16)
    (hinj : ∀ a b : List Nat, a.length = 16 → b.length = 16 → f a = f b → a = b)
    (stream1 stream2 : Nat → Nat) (content : List Nat)
    (ct1 iv1 ct2 iv2 : List Nat)
    (h1 : encrypt_file_content (fun b => .ok (f b)) stream1 content = .ok (ct1, iv1))
    (h2 : encrypt_file_content (fun b => .ok (f b)) stream2 content = .ok (ct2, iv2))
    (hiv : iv1 ≠ iv2) : ct1 ≠ ct2 := by
  simp only [encrypt_file_content] at h1 h2
  split at h1
  next e hcbc1 => cases h1
  next cs1 hcbc1 =>
    cases h1
    split at h2
    next e hcbc2 => cases h2
    next cs2 hcbc2 =>
      cases h2
      have hblocks : ∀ b ∈ chunk 16 (pkcs7pad 16 content), b.length = 16 :=
        chunk_block_length 16 (by omega) _ (pkcs7pad_length_mod 16 (by omega) content)
      have hpadlen : 0 < (pkcs7pad 16 content).length := by
        simp only [pkcs7pad, List.length_append, List.length_replicate]
        have := Nat.mod_lt content.length (show 0 < 16 by omega)
        omega
      obtain ⟨b0, rest, hchunk⟩ : ∃ b0 rest, chunk 16 (pkcs7pad 16 content) = b0 :: rest := by
        match hc : chunk 16 (pkcs7pad 16 content) with
        | [] =>
          exfalso
          have := flatten_chunk 16 (by omega) (pkcs7pad 16 content)
          rw [hc] at this
          simp only [List.flatten_nil] at this
          rw [← this] at hpadlen
          simp at hpadlen
        | b0 :: rest => exact ⟨b0, rest, rfl⟩
      rw [hchunk] at hcbc1 hcbc2
      have hb0 : b0.length = 16 := hblocks b0 (by rw [hchunk]; simp)
      simp only [cbcEncryptBlocks] at hcbc1 hcbc2
      split at hcbc1
      next e hres1 => cases hcbc1
      next cs1' hres1 =>
        cases hcbc1
        split at hcbc2
        next e hres2 => cases hcbc2
        next cs2' hres2 =>
          cases hcbc2
          intro hcteq
          apply hiv
          have hiv1len : (get_random_bytes 16 stream1).length = 16 :=
            get_random_bytes_length _ _
          have hiv2len : (get_random_bytes 16 stream2).length = 16 :=
            get_random_bytes_length _ _
          have hx1len : (xorBytes (get_random_bytes 16 stream1) b0).length = 16 := by
            rw [xorBytes_length, hiv1len, hb0]; simp
          have hx2len : (xorBytes (get_random_bytes 16 stream2) b0).length = 16 := by
            rw [xorBytes_length, hiv2len, hb0]; simp
          have hc1len : (f (xorBytes (get_random_bytes 16 stream1) b0)).length = 16 :=
            hlen _ hx1len
          have hc2len : (f (xorBytes (get_random_bytes 16 stream2) b0)).length = 16 :=
            hlen _ hx2len
          have hfirst : f (xorBytes (get_random_bytes 16 stream1) b0)
              = f (xorBytes (get_random_bytes 16 stream2) b0) := by
            have htake := congrArg (List.take 16) hcteq
            rw [List.flatten_cons, List.flatten_cons,
              take_length_append _ _ _ hc1len, take_length_append _ _ _ hc2len] at htake
            exact htake
          have hxeq := hinj _ _ hx1len hx2len hfirst
          exact xorBytes_right_cancel _ _ b0 (by omega) (by omega) hxeq
